import Mathlib

/-!
Shallow embedding of the `prism` point-distribution library.

Numeric model: the program computes in `f32`; here every quantity is an
exact rational (`ℚ`).  Floating-point rounding is below the abstraction
level of the claims; literal constants are embedded exactly, and the f32
constant `std::f32::consts::SQRT_2` is embedded as the exact rational value
of that 32-bit float.  The f32 square root is modelled by `sqrtQ`, an exact
rational square root that agrees with the real square root on
perfect-square arguments (all concrete evaluations below only take square
roots of perfect squares).  IEEE NaN propagation, which `ℚ` cannot express
(division by zero is total in Lean), is modelled separately by `Option ℚ`
arithmetic (`none` = NaN) in the `step_collisions_nan` development.

Vectors `Vector<f32, N>` are modelled as `Fin N → ℚ`, machine integers
(`u32`, `usize`, `i32`) as `ℕ`/`ℤ`, and the injectable random generator as
a stream `ℕ → ℚ` of uniform draws in `[0,1)` consumed in program order.
-/

set_option allowUnsafeReducibility true
attribute [semireducible] Rat.mul Rat.add Rat.sub Rat.inv Rat.ofScientific

namespace Prism

/-- A point / vector `Vector<f32, N>`: one exact rational per axis. -/
abbrev VecQ (N : ℕ) := Fin N → ℚ

/-- Dot product of two vectors. -/
def dotQ {N : ℕ} (a b : VecQ N) : ℚ := ∑ i, a i * b i

/-- Squared Euclidean norm (`norm_squared`). -/
def normSq {N : ℕ} (a : VecQ N) : ℚ := ∑ i, a i * a i

/-- Fuelled binary integer square root (structural recursion, so that
concrete evaluations reduce): `⌊√n⌋` computed from `⌊√(n/4)⌋`. -/
def natSqrtLoop : ℕ → ℕ → ℕ
  | 0, _ => 0
  | fuel+1, n =>
    let r := natSqrtLoop fuel (n / 4) * 2
    if (r + 1) * (r + 1) ≤ n then r + 1 else r

/-- The integer square root `⌊√n⌋` (equal to `Nat.sqrt`, see
`natSqrt_eq_sqrt`). -/
def natSqrt (n : ℕ) : ℕ := natSqrtLoop n n

/-- Exact rational square root modelling the f32 `sqrt`: exact on
perfect-square rationals (the only arguments evaluated concretely here);
on other arguments it is some nonnegative rational approximation. -/
def sqrtQ (q : ℚ) : ℚ := (natSqrt q.num.toNat : ℚ) / (natSqrt q.den : ℚ)

/-- Euclidean norm (`.norm()`), via `sqrtQ`. -/
def normQ {N : ℕ} (a : VecQ N) : ℚ := sqrtQ (normSq a)

/-- The f32 constant `std::f32::consts::SQRT_2` as an exact rational:
the 32-bit float nearest to `√2` is `11863283 / 2^23`. -/
def sqrt2C : ℚ := 11863283 / 8388608

/-- The f32 constant `f32::MAX` as an exact rational: `(2 - 2^-23) · 2^127`. -/
def f32MaxC : ℚ := 2 ^ 128 - 2 ^ 104

/-- `f32::rem_euclid` for a positive modulus: `x - s·⌊x/s⌋ ∈ [0, s)`. -/
def rem_euclid (x s : ℚ) : ℚ := x - s * ⌊x / s⌋

/-- `utils::from_linear`: mixed-radix digits of `index`, first axis fastest,
exactly the sequential `index % s; index /= s` of the source's
`Vector::from_fn` closure, as a list in axis order. -/
def from_linear : ℕ → List ℕ → List ℕ
  | _, [] => []
  | index, s :: rest => (index % s) :: from_linear (index / s) rest

/-- `utils::to_linear`: row-major linear address via the source's
`zip_fold` with accumulator `(step, res)`. -/
def to_linear (index shape : List ℕ) : ℕ :=
  ((index.zip shape).foldl (fun p x => (p.1 * x.2, p.2 + p.1 * x.1)) (1, 0)).2

/-- `from_linear` specialised to a shape given as a vector, reading the
component for one axis (the source instantiates `from_linear` at
`Vector<u32, N>`). -/
def from_linear_vec {N : ℕ} (index : ℕ) (shape : Fin N → ℕ) : Fin N → ℕ :=
  fun i => (from_linear index (List.ofFn shape)).getD i 0

/-- `utils::foreach_grid_in_rect`: the lattice points of spacing `size`
and origin `offset` that fall in the axis-aligned box
`[rect_offset, rect_offset + rect_size)`, in the source's enumeration
order (linear index over the computed `shape`). -/
def foreach_grid_in_rect {N : ℕ} (offset size rect_offset rect_size : VecQ N) :
    List (VecQ N) :=
  let off : VecQ N := fun i => rem_euclid (offset i - rect_offset i) (size i)
  let shape : Fin N → ℕ := fun i => (⌈(rect_size i - off i) / size i⌉).toNat
  (List.range (List.ofFn shape).prod).map (fun li =>
    fun i => rect_offset i + off i + (from_linear_vec li shape i : ℚ) * size i)

/-- `base::Cell`: the per-cell classification. -/
inductive Cell where
  | Inside : Cell
  | Outside : Cell
  | Border : Cell
deriving DecidableEq

/-- The `VolumeCore` trait object: signed distance, (normalized or zero)
gradient, containment test and axis-aligned bounds. -/
structure VolumeQ (N : ℕ) where
  distance : VecQ N → ℚ
  gradient : VecQ N → VecQ N
  contains : VecQ N → Bool
  min_bound : VecQ N
  max_bound : VecQ N

/-- `base::VolumeGrid`: the immutable classification grid owning its volume. -/
structure VolumeGrid (N : ℕ) where
  volume : VolumeQ N
  cell_size : ℚ
  offset : Fin N → ℤ
  cells : List Cell
  inside_cells : List (Fin N → ℤ)
  border_cells : List (Fin N → ℤ)

/-- The three-way band test of `create_grid`'s `match`:
`..-1.0 => Inside`, `-1.0..=1.0 => Border`, `_ => Outside`. -/
def classifyCell (d : ℚ) : Cell :=
  if d < -1 then Cell.Inside else if d ≤ 1 then Cell.Border else Cell.Outside

/-- The scaled center distance `create_grid` classifies one cell by:
distance at the cell center `(pos + 0.5) * cell_size`, times
`SQRT_2 / cell_size`. -/
def scaledCenterDist {N : ℕ} (v : VolumeQ N) (cell_size : ℚ) (pos : Fin N → ℤ) : ℚ :=
  v.distance (fun i => ((pos i : ℚ) + 1/2) * cell_size) * sqrt2C / cell_size

/-- The signed cell coordinate of linear index `idx` in a grid traversal:
`from_linear(idx, size) + offset` per axis (the `pos` of `create_grid`'s
closure). -/
def gridPos {N : ℕ} (offset : Fin N → ℤ) (size : Fin N → ℕ) (idx : ℕ) :
    Fin N → ℤ :=
  fun i => (from_linear_vec idx size i : ℤ) + offset i

/-- One step of the accumulation inside `create_grid`'s `Array::from_fn`
closure: classify the cell at linear index `idx` and append it to the
cells array and, by class, to the inside/border coordinate lists. -/
def createGridStep {N : ℕ} (v : VolumeQ N) (cell_size : ℚ) (offset : Fin N → ℤ)
    (size : Fin N → ℕ)
    (acc : List Cell × List (Fin N → ℤ) × List (Fin N → ℤ)) (idx : ℕ) :
    List Cell × List (Fin N → ℤ) × List (Fin N → ℤ) :=
  let pos := gridPos offset size idx
  let ty := classifyCell (scaledCenterDist v cell_size pos)
  (acc.1 ++ [ty],
   if ty = Cell.Inside then acc.2.1 ++ [pos] else acc.2.1,
   if ty = Cell.Border then acc.2.2 ++ [pos] else acc.2.2)

/-- `VolumeCore::create_grid`: integer offset `floor(min/cell_size)` per
axis, sizes `ceil(max/cell_size) - offset` per axis, and one traversal of
the linear indices classifying every cell. -/
def VolumeQ.create_grid {N : ℕ} (v : VolumeQ N) (cell_size : ℚ) : VolumeGrid N :=
  let offset : Fin N → ℤ := fun i => ⌊v.min_bound i / cell_size⌋
  let size : Fin N → ℕ := fun i => (⌈v.max_bound i / cell_size⌉ - offset i).toNat
  let res := (List.range (List.ofFn size).prod).foldl
    (createGridStep v cell_size offset size) ([], [], [])
  ⟨v, cell_size, offset, res.1, res.2.1, res.2.2⟩

/-- The number of per-axis cells `create_grid` allocates. -/
def gridSize {N : ℕ} (v : VolumeQ N) (cell_size : ℚ) : Fin N → ℕ :=
  fun i => (⌈v.max_bound i / cell_size⌉ - ⌊v.min_bound i / cell_size⌋).toNat

/-- `VolumeGrid::containing_cell`: `floor(point / cell_size)` per axis. -/
def VolumeGrid.containing_cell {N : ℕ} (g : VolumeGrid N) (p : VecQ N) : Fin N → ℤ :=
  fun i => ⌊p i / g.cell_size⌋

/-- `rng.gen_range(0..n)` for a uniform draw `u ∈ [0,1)` from the stream:
the integer `⌊u·n⌋ ∈ [0, n)`. -/
def gen_range_nat (s : ℕ → ℚ) (k n : ℕ) : ℕ := (⌊s k * (n : ℚ)⌋).toNat

/-- A stream of uniform draws: every value in `[0, 1)`. -/
def UnitStream (s : ℕ → ℚ) : Prop := ∀ n, 0 ≤ s n ∧ s n < 1

/-- The fresh point offsets one `sample_white` loop iteration draws:
`gen_range(0.0..cell_size)` per axis, consuming stream positions
`k+1, …, k+N` (position `k` was the cell draw). -/
def sampleOffsets {N : ℕ} (cell_size : ℚ) (s : ℕ → ℚ) (k : ℕ) : VecQ N :=
  fun i => s (k + 1 + (i : ℕ)) * cell_size

/-- `Sampler::sample_white`, fuelled (the source's `loop` has no bound; a
run that exhausts `fuel` iterations returns `none`).  Each iteration draws
a cell uniformly among inside ++ border cells, then a point inside it;
inside cells return at once, border cells return only if the raw volume's
`contains` accepts.  Returns the sample and the next stream position. -/
def sample_white_aux {N : ℕ} (g : VolumeGrid N) (s : ℕ → ℚ) :
    ℕ → ℕ → Option (VecQ N) × ℕ
  | 0, k => (none, k)
  | fuel+1, k =>
    let allowed := g.inside_cells.length + g.border_cells.length
    let cell := gen_range_nat s k allowed
    let point : VecQ N := sampleOffsets g.cell_size s k
    if cell < g.inside_cells.length then
      (some (fun i =>
        point i + ((g.inside_cells.getD cell (fun _ => 0)) i : ℚ) * g.cell_size),
       k + 1 + N)
    else
      let c := g.border_cells.getD (cell - g.inside_cells.length) (fun _ => 0)
      let point2 : VecQ N := fun i => point i + (c i : ℚ) * g.cell_size
      if g.volume.contains point2 then (some point2, k + 1 + N)
      else sample_white_aux g s fuel (k + 1 + N)

/-- `Sampler::sample_white`, the sampled point only. -/
def VolumeGrid.sample_white {N : ℕ} (g : VolumeGrid N) (s : ℕ → ℚ) (fuel k : ℕ) :
    Option (VecQ N) :=
  (sample_white_aux g s fuel k).1

/-- One single iteration of the `sample_white` loop, as an independent
trial on the stream segment starting at `k`: `some p` when that iteration
returns, `none` when it rejects (a border draw failing `contains`). -/
def sample_attempt {N : ℕ} (g : VolumeGrid N) (s : ℕ → ℚ) (k : ℕ) :
    Option (VecQ N) :=
  let allowed := g.inside_cells.length + g.border_cells.length
  let cell := gen_range_nat s k allowed
  let point : VecQ N := sampleOffsets g.cell_size s k
  if cell < g.inside_cells.length then
    some (fun i =>
      point i + ((g.inside_cells.getD cell (fun _ => 0)) i : ℚ) * g.cell_size)
  else
    let c := g.border_cells.getD (cell - g.inside_cells.length) (fun _ => 0)
    let point2 : VecQ N := fun i => point i + (c i : ℚ) * g.cell_size
    if g.volume.contains point2 then some point2 else none

/-- `Sampler::generate_grid`: lattice points over every inside cell,
then over every border cell filtered through the raw volume's `contains`
(the list concatenation keeps the source's callback order). -/
def VolumeGrid.generate_grid {N : ℕ} (g : VolumeGrid N) (size offset : VecQ N) :
    List (VecQ N) :=
  (g.inside_cells.flatMap fun c =>
    foreach_grid_in_rect offset size
      (fun i => (c i : ℚ) * g.cell_size) (fun _ => g.cell_size))
  ++ (g.border_cells.flatMap fun c =>
    (foreach_grid_in_rect offset size
      (fun i => (c i : ℚ) * g.cell_size) (fun _ => g.cell_size)).filter
      (fun p => g.volume.contains p))

/-- One cell's draws in `generate_randomized_grid`: a Bernoulli draw on the
fractional part of the density, then `⌊density⌋ + extra` points of `N`
coordinates each.  Returns the points and the next stream position. -/
def randomizedCellSamples {N : ℕ} (g : VolumeGrid N) (density : ℚ) (s : ℕ → ℚ)
    (c : Fin N → ℤ) (k : ℕ) : List (VecQ N) × ℕ :=
  let extra : ℕ := if s k < density - ⌊density⌋ then 1 else 0
  let num := (⌊density⌋).toNat + extra
  ((List.range num).map (fun j =>
      fun i => s (k + 1 + j * N + (i : ℕ)) * g.cell_size + (c i : ℚ) * g.cell_size),
   k + 1 + num * N)

/-- The per-cell-list loop of `generate_randomized_grid`; border cells
(`filt = true`) filter each drawn point through the volume's `contains`. -/
def randomizedOverCells {N : ℕ} (g : VolumeGrid N) (density : ℚ) (s : ℕ → ℚ)
    (filt : Bool) : List (Fin N → ℤ) → ℕ → List (VecQ N) × ℕ
  | [], k => ([], k)
  | c :: rest, k =>
    let first := randomizedCellSamples g density s c k
    let pts := if filt then first.1.filter (fun p => g.volume.contains p) else first.1
    let restRes := randomizedOverCells g density s filt rest first.2
    (pts ++ restRes.1, restRes.2)

/-- `Sampler::generate_randomized_grid`: inside cells then border cells,
threading the stream position. -/
def VolumeGrid.generate_randomized_grid {N : ℕ} (g : VolumeGrid N)
    (samples_per_cell : ℚ) (s : ℕ → ℚ) (k : ℕ) : List (VecQ N) × ℕ :=
  let ins := randomizedOverCells g samples_per_cell s false g.inside_cells k
  let bor := randomizedOverCells g samples_per_cell s true g.border_cells ins.2
  (ins.1 ++ bor.1, bor.2)

/-- The zero vector, default for out-of-range point lookups. -/
def vzero {N : ℕ} : VecQ N := fun _ => 0

/-- `solver::Solver`: the grid, the mutable point set, the particle radius
and the two convergence metrics.  `Solver::new` initializes both metrics to
`f32::INFINITY`, modelled as `⊤` in `WithTop ℚ`.  The `point_grid` hash map
is rebuilt from scratch inside every collision step (`update_grid`); it is
modelled by the pure lookup `Solver.point_grid`. -/
structure Solver (N : ℕ) where
  volume : VolumeGrid N
  points : List (VecQ N)
  radius : ℚ
  max_penetration : WithTop ℚ
  boundary_penetration : WithTop ℚ

/-- `Solver::new`. -/
def Solver.new {N : ℕ} (volume : VolumeGrid N) (points : List (VecQ N))
    (radius : ℚ) : Solver N :=
  ⟨volume, points, radius, ⊤, ⊤⟩

/-- The spatial hash `update_grid` builds, as a lookup: the indices of the
points lying in `cell`, in insertion order (ascending index, since
`update_grid` pushes indices while iterating the points in order). -/
def point_grid_at {N : ℕ} (g : VolumeGrid N) (points : List (VecQ N))
    (cell : Fin N → ℤ) : List ℕ :=
  (List.range points.length).filter
    (fun i => g.containing_cell (points.getD i vzero) = cell)

/-- The offset of the `o`-th cell of the `3^N` neighborhood scan:
`from_linear(o, [3,…,3]) - 1` per axis. -/
def neighborOffset {N : ℕ} (o : ℕ) : Fin N → ℤ :=
  fun i => (from_linear_vec o (fun _ => 3) i : ℤ) - 1

/-- `Solver::neighbors` for point `i`: every other point index found in the
`3^N`-cell neighborhood of `i`'s cell, in scan order (neighborhood cells in
linear-index order, indices within a cell in insertion order, skipping `i`
itself). -/
def neighbor_list {N : ℕ} (g : VolumeGrid N) (points : List (VecQ N)) (i : ℕ) :
    List ℕ :=
  let cell := g.containing_cell (points.getD i vzero)
  (List.range (3 ^ N)).flatMap (fun o =>
    (point_grid_at g points (fun j => cell j + neighborOffset o j)).filter
      (fun a => a ≠ i))

/-- The inner-loop body of `step_collisions`' neighbor closure: thread the
accumulated correction for point `p` and the running worst penetration
through one neighbor `q` (a pair evaluation).  The correction contribution
`(p-q)/dist * pen / 2` is added only when the penetration is positive; the
worst-penetration tracker is updated on every evaluated pair. -/
def collisionInner {N : ℕ} (radius : ℚ) (p : VecQ N) (points : List (VecQ N))
    (a : VecQ N × ℚ) (j : ℕ) : VecQ N × ℚ :=
  let q := points.getD j vzero
  let dist := normQ (fun m => p m - q m)
  let pen := radius * 2 - dist
  (if 0 < pen then (fun m => a.1 m + (p m - q m) / dist * pen / 2) else a.1,
   max a.2 pen)

/-- The outer-loop body of `step_collisions`' delta map: run the neighbor
scan for point `i` from a zero correction, append the accumulated
correction to the delta buffer and thread the worst penetration. -/
def collisionOuter {N : ℕ} (g : VolumeGrid N) (radius : ℚ) (pts : List (VecQ N))
    (acc : List (VecQ N) × ℚ) (i : ℕ) : List (VecQ N) × ℚ :=
  let p := pts.getD i vzero
  let inner := (neighbor_list g pts i).foldl (collisionInner radius p pts) (vzero, acc.2)
  (acc.1 ++ [inner.1], inner.2)

/-- `Solver::step_collisions`: rebuild the hash, accumulate per-point
Jacobi corrections and the worst penetration over every evaluated pair from
the snapshot of positions, then apply `correction × delta_factor` to every
point simultaneously and store the worst penetration. -/
def Solver.step_collisions {N : ℕ} (sv : Solver N) (delta_factor : ℚ) : Solver N :=
  let pts := sv.points
  let acc := (List.range pts.length).foldl
    (collisionOuter sv.volume sv.radius pts) ([], 0)
  { sv with
    points := List.zipWith (fun p d => fun m => p m + d m * delta_factor) pts acc.1,
    max_penetration := ((acc.2 : ℚ) : WithTop ℚ) }

/-- The body of `step_boundary`'s per-point loop: a point at positive field
distance moves by `-gradient · distance · delta_factor`, and the worst
re-evaluated distance of a moved point is tracked; a point at distance
`≤ 0` is untouched and tracks nothing. -/
def boundaryMove {N : ℕ} (v : VolumeQ N) (delta_factor : ℚ)
    (a : List (VecQ N) × ℚ) (p : VecQ N) : List (VecQ N) × ℚ :=
  let dist := v.distance p
  if 0 < dist then
    let p2 : VecQ N := fun m => p m - v.gradient p m * dist * delta_factor
    (a.1 ++ [p2], max a.2 (v.distance p2))
  else (a.1 ++ [p], a.2)

/-- `Solver::step_boundary`: reset `boundary_penetration` to 0, then fold
`boundaryMove` over the points in order. -/
def Solver.step_boundary {N : ℕ} (sv : Solver N) (delta_factor : ℚ) : Solver N :=
  let res := sv.points.foldl (boundaryMove sv.volume.volume delta_factor) ([], 0)
  { sv with points := res.1, boundary_penetration := ((res.2 : ℚ) : WithTop ℚ) }

/-- The `while` condition of `Solver::solve`:
`max_penetration > cutoff·radius || boundary_penetration > 0.0001·radius`
(the f32 literal `0.0001` embedded as `1/10000`). -/
def solveCond {N : ℕ} (cutoff : ℚ) (sv : Solver N) : Bool :=
  decide (((cutoff * sv.radius : ℚ) : WithTop ℚ) < sv.max_penetration) ||
  decide (((1/10000 * sv.radius : ℚ) : WithTop ℚ) < sv.boundary_penetration)

/-- One iteration of `solve`'s loop body:
`step_collisions(2.0)` followed by `step_boundary(1.0)`. -/
def solveStep {N : ℕ} (sv : Solver N) : Solver N :=
  (sv.step_collisions 2).step_boundary 1

/-- The loop of `Solver::solve` with the remaining iteration budget
explicit: runs while the condition holds and budget remains, counting the
iterations executed. -/
def solveGo {N : ℕ} (cutoff : ℚ) : ℕ → Solver N → ℕ × Solver N
  | 0, sv => (0, sv)
  | m+1, sv =>
    if solveCond cutoff sv then
      let r := solveGo cutoff m (solveStep sv)
      (r.1 + 1, r.2)
    else (0, sv)

/-- `Solver::solve(max_iters, cutoff)`: the iteration count actually used
and the final solver state. -/
def Solver.solve {N : ℕ} (sv : Solver N) (max_iters : ℕ) (cutoff : ℚ) :
    ℕ × Solver N :=
  solveGo cutoff max_iters sv

/-- The correction the claim attributes to one evaluated pair `(p, q)`:
magnitude `(2·radius - |p-q|)/2` along `(p-q)/|p-q|` when penetrating,
zero otherwise. -/
def collision_delta {N : ℕ} (radius : ℚ) (p q : VecQ N) : VecQ N :=
  let dist := normQ (fun m => p m - q m)
  let pen := radius * 2 - dist
  if 0 < pen then (fun m => (p m - q m) / dist * pen / 2) else vzero

/-- Pointwise sum of a list of vectors. -/
def vec_sum {N : ℕ} (l : List (VecQ N)) : VecQ N :=
  l.foldr (fun a b => fun m => a m + b m) vzero

/-- The total correction the claim attributes to point `i`: the sum, over
every other point `q` found in the `3^N`-cell neighborhood, of the pair
correction `collision_delta` — all computed from the snapshot `pts`. -/
def point_delta {N : ℕ} (g : VolumeGrid N) (radius : ℚ) (pts : List (VecQ N))
    (i : ℕ) : VecQ N :=
  vec_sum ((neighbor_list g pts i).map (fun j =>
    collision_delta radius (pts.getD i vzero) (pts.getD j vzero)))

/-- The penetration values `2·radius - |p - q|` of every pair
`step_collisions` evaluates, in evaluation order. -/
def pair_penetrations {N : ℕ} (sv : Solver N) : List ℚ :=
  (List.range sv.points.length).flatMap (fun i =>
    (neighbor_list sv.volume sv.points i).map (fun j =>
      sv.radius * 2 -
        normQ (fun m => sv.points.getD i vzero m - sv.points.getD j vzero m)))

/-- `utils::project_line`: the closest point to `x` on segment `[a, b]`
(parameter clamped to `[0,1]`; Rust `clamp(0.0,1.0)` is `min (max · 0) 1`). -/
def project_line {N : ℕ} (a b x : VecQ N) : VecQ N :=
  let c : VecQ N := fun m => b m - a m
  let l2 := normSq c
  let proj := dotQ (fun m => x m - a m) c / l2
  let pc := min (max proj 0) 1
  fun m => a m + pc * c m

/-- `utils::distance_to_line`: distance from `x` to segment `[a, b]`. -/
def distance_to_line {N : ℕ} (a b x : VecQ N) : ℚ :=
  normQ (fun m => x m - project_line a b x m)

/-- `polygon::PolygonArea`: a union of polygon loops with its cached
bounding box. -/
structure PolygonArea where
  polygons : List (List (VecQ 2))
  min : VecQ 2
  max : VecQ 2

/-- The crossing test of one pnpoly edge `(a, b)`:
`(a.y > p.y) != (b.y > p.y) && p.x < (b.x-a.x)·(p.y-a.y)/(b.y-a.y) + a.x`. -/
def pnpolyEdgeCond (p a b : VecQ 2) : Bool :=
  (decide (p 1 < a 1) != decide (p 1 < b 1)) &&
  decide (p 0 < (b 0 - a 0) * (p 1 - a 1) / (b 1 - a 1) + a 0)

/-- The pnpoly loop over one polygon: `b` starts at the last vertex, each
vertex `a` toggles `interior` when its edge condition fires, then becomes
the new `b`.  (The source unwraps `last()`; an empty loop list is never
built, the model returns `interior` unchanged for it.) -/
def pnpolyLoop (p : VecQ 2) (poly : List (VecQ 2)) (interior : Bool) : Bool :=
  (poly.foldl (fun (st : Bool × VecQ 2) a =>
    (if pnpolyEdgeCond p a st.2 then !st.1 else st.1, a))
    (interior, poly.getLastD vzero)).1

/-- `PolygonArea::contains` (`Volume<2>` impl): bounding-box rejection,
then the even-odd crossing rule threaded across every polygon loop. -/
def PolygonArea.contains (P : PolygonArea) (p : VecQ 2) : Bool :=
  if decide (p 0 < P.min 0) || decide (p 1 < P.min 1) ||
     decide (p 0 > P.max 0) || decide (p 1 > P.max 1) then false
  else P.polygons.foldl (fun interior poly => pnpolyLoop p poly interior) false

/-- The edge loop of `PolygonArea::distance` over one polygon, threading
the running minimum distance (`b` starts at the last vertex). -/
def polyEdgeFold (p : VecQ 2) (poly : List (VecQ 2)) (d0 : ℚ) : ℚ :=
  (poly.foldl (fun (st : ℚ × VecQ 2) a =>
    (min st.1 (distance_to_line a st.2 p), a)) (d0, poly.getLastD vzero)).1

/-- The minimum point-to-edge distance over all loops, started at
`f32::MAX` like the source's `dist` accumulator. -/
def PolygonArea.min_edge_dist (P : PolygonArea) (p : VecQ 2) : ℚ :=
  P.polygons.foldl (fun d poly => polyEdgeFold p poly d) f32MaxC

/-- `PolygonArea::distance` (`DistanceField<2>` impl): the minimum edge
distance, negated when `contains` holds. -/
def PolygonArea.distance (P : PolygonArea) (p : VecQ 2) : ℚ :=
  if P.contains p then -(P.min_edge_dist p) else P.min_edge_dist p

/-- `Volume::pad` / `ext::PaddedVolume`: adds a constant offset to the
inner distance, keeps the gradient, defines containment as the shifted
distance being `≤ 0`, and shrinks the bounds symmetrically. -/
def VolumeQ.pad {N : ℕ} (v : VolumeQ N) (offset : ℚ) : VolumeQ N :=
  { distance := fun p => v.distance p + offset
    gradient := v.gradient
    contains := fun p => decide (v.distance p + offset ≤ 0)
    min_bound := fun i => v.min_bound i + offset
    max_bound := fun i => v.max_bound i - offset }

/-- IEEE-style addition on `Option ℚ` (`none` = NaN): NaN absorbs. -/
def fadd : Option ℚ → Option ℚ → Option ℚ
  | some a, some b => some (a + b)
  | _, _ => none

/-- IEEE-style multiplication on `Option ℚ` (`none` = NaN): NaN absorbs. -/
def fmul : Option ℚ → Option ℚ → Option ℚ
  | some a, some b => some (a * b)
  | _, _ => none

/-- IEEE-style division on `Option ℚ`: a zero divisor yields the undefined
value (the reachable zero-divisor case in `step_collisions` is `0/0`, NaN;
finite divisors divide exactly), and NaN absorbs. -/
def fdiv : Option ℚ → Option ℚ → Option ℚ
  | some a, some b => if b = 0 then none else some (a / b)
  | _, _ => none

/-- `Solver::step_collisions` instrumented with the NaN-aware arithmetic,
for one step from finite positions: identical neighbor scan and formulas,
but the normalization `(p - q) / dist` and everything downstream of it is
computed in `Option ℚ`, so a zero `dist` produces `none` (NaN) and `none`
propagates into the written position exactly as IEEE NaN would. -/
def step_collisions_nan {N : ℕ} (g : VolumeGrid N) (radius delta_factor : ℚ)
    (points : List (VecQ N)) : List (Fin N → Option ℚ) :=
  (List.range points.length).map (fun i =>
    let p := points.getD i vzero
    let delta := (neighbor_list g points i).foldl
      (fun (a : Fin N → Option ℚ) j =>
        let q := points.getD j vzero
        let dist := normQ (fun m => p m - q m)
        let pen := radius * 2 - dist
        if 0 < pen then
          fun m => fadd (a m)
            (fdiv (fmul (fdiv (some (p m - q m)) (some dist)) (some pen)) (some 2))
        else a) (fun _ => some 0)
    fun m => fadd (some (p m)) (fmul (delta m) (some delta_factor)))

/-- `ext::PackedSettings` (with the particle settings inlined). -/
structure PackedSettings where
  radius : ℚ
  pad_border : Bool
  max_iters : ℕ
  cutoff : ℚ
  density : ℚ

/-- `ext::default_packed_density`. -/
def default_packed_density (N : ℕ) : ℚ :=
  match N with
  | 1 => 1
  | 2 => 1
  | 3 => 3/2
  | _ => 1

/-- `ext::packed_points_impl`: build the sampler grid at `radius * 2`,
seed by `generate_randomized_grid`, construct the solver and run `solve`.
Returns `(points, iters, max_penetration)` as `PackedPoints` carries. -/
def packed_points_impl {N : ℕ} (domain : VolumeQ N) (st : PackedSettings)
    (s : ℕ → ℚ) : List (VecQ N) × ℕ × WithTop ℚ :=
  let g := domain.create_grid (st.radius * 2)
  let gen := g.generate_randomized_grid
    (if st.density ≤ 0 then default_packed_density N else st.density) s 0
  let sol := Solver.new g gen.1 st.radius
  let r := sol.solve st.max_iters st.cutoff
  (r.2.points, r.1, r.2.max_penetration)

/-- `Volume::packed_points_with_rng`: pad the domain by the particle
radius when `pad_border` is set, then run the sample→pack pipeline. -/
def VolumeQ.packed_points_with_rng {N : ℕ} (v : VolumeQ N) (st : PackedSettings)
    (s : ℕ → ℚ) : List (VecQ N) × ℕ × WithTop ℚ :=
  if st.pad_border then packed_points_impl (v.pad st.radius) st s
  else packed_points_impl v st s

/-- The `(0..count).map(|_| sampler.sample_white())` loop of
`random_points_with_rng`, threading the stream position (a fuel-exhausted
draw contributes nothing). -/
def random_points_go {N : ℕ} (g : VolumeGrid N) (s : ℕ → ℚ) (fuel : ℕ) :
    ℕ → ℕ → List (VecQ N)
  | 0, _ => []
  | n+1, k =>
    let r := sample_white_aux g s fuel k
    (match r.1 with | some p => [p] | none => []) ++ random_points_go g s fuel n r.2

/-- `Volume::random_points_with_rng`: `count` white samples from the grid
built at `cell_size`. -/
def VolumeQ.random_points_with_rng {N : ℕ} (v : VolumeQ N) (count : ℕ)
    (cell_size : ℚ) (s : ℕ → ℚ) (fuel : ℕ) : List (VecQ N) :=
  random_points_go (v.create_grid cell_size) s fuel count 0

/-- A distance function squared-1-Lipschitz for the Euclidean metric:
the squared form of `|d(x) - d(y)| ≤ ‖x - y‖`, stated without square
roots. -/
def LipschitzSq {N : ℕ} (v : VolumeQ N) : Prop :=
  ∀ x y : VecQ N, (v.distance x - v.distance y) ^ 2 ≤ normSq (fun m => x m - y m)

/-- A containment test consistent with its signed distance field:
`contains p ⇔ distance p ≤ 0`. -/
def SdfConsistent {N : ℕ} (v : VolumeQ N) : Prop :=
  ∀ x, v.contains x = true ↔ v.distance x ≤ 0

/-- A concrete 1D domain, the interval `[-1/2, 8/5]`, with the exact
signed distance `max (min - x) (x - max)`. -/
def interval1 : VolumeQ 1 :=
  { distance := fun p => max (-(1:ℚ)/2 - p 0) (p 0 - 8/5)
    gradient := fun _ => vzero
    contains := fun p => decide (max (-(1:ℚ)/2 - p 0) (p 0 - 8/5) ≤ 0)
    min_bound := fun _ => -(1:ℚ)/2
    max_bound := fun _ => 8/5 }

/-- A concrete 3D domain: the half-space `u·p ≤ 463/300` for the rational
unit vector `u = (1/3, 2/3, 2/3)`, with its exact signed distance
`u·p - 463/300` (1-Lipschitz, consistent with containment). -/
def halfspace3 : VolumeQ 3 :=
  { distance := fun p => p 0 * (1/3) + p 1 * (2/3) + p 2 * (2/3) - 463/300
    gradient := fun _ => vzero
    contains := fun p =>
      decide (p 0 * (1/3) + p 1 * (2/3) + p 2 * (2/3) - 463/300 ≤ 0)
    min_bound := fun _ => 0
    max_bound := fun _ => 1 }

/-- The stream for the C4 counterexample run: first draw selects cell
index 1 (a border cell), second the rejected offset, third selects cell
index 0 (the inside cell), fourth the returned offset. -/
def c4stream : ℕ → ℚ := fun n => [1/2, 1/10, 1/10, 1/4].getD n 0

/-- The stream for the C5 counterexample run: cell draw 0 (the single,
inside-classified cell), then offsets `99/100` per axis. -/
def c5stream : ℕ → ℚ := fun n => [0, 99/100, 99/100, 99/100].getD n 0

/-- The constant stream `1/2`, a valid unit stream. -/
def halfStream : ℕ → ℚ := fun _ => 1/2

/-- The point the C5 counterexample draws from the inside-classified cell:
`(99/100, 99/100, 99/100)`, outside `halfspace3`. -/
def c5point : VecQ 3 := fun _ => 99/100

/-- The unit square as the `PolygonArea` that
`PolygonArea::new().add_rect(half=(1/2,1/2), center=(1/2,1/2))` builds:
vertex order `(0,0), (1,0), (1,1), (0,1)` and its computed bounds. -/
def unit_square : PolygonArea :=
  { polygons := [[fun _ => 0, ![1, 0], ![1, 1], ![0, 1]]]
    min := fun _ => 0
    max := fun _ => 1 }

/-- The point `(1, 1/2)`, exactly on the right edge of `unit_square`. -/
def edgePoint : VecQ 2 := ![1, 1/2]

/-- The interior point `(1/2, 1/2)` of `unit_square`. -/
def centerPoint : VecQ 2 := ![1/2, 1/2]

/-- A demo 1D solver state: two points `1/4` and `5/4` at radius 1 in
adjacent grid cells of the `interval1` grid. -/
def demoSolver : Solver 1 :=
  Solver.new (interval1.create_grid 1) [fun _ => 1/4, fun _ => 5/4] 1

/-- Demo packed-pipeline settings. -/
def demoSettings : PackedSettings :=
  { radius := 1, pad_border := true, max_iters := 2, cutoff := 1/10, density := 1 }

/-! ## Theorems -/

theorem natSqrtLoop_spec : ∀ (fuel n : ℕ), n ≤ fuel →
    natSqrtLoop fuel n * natSqrtLoop fuel n ≤ n ∧
    n < (natSqrtLoop fuel n + 1) * (natSqrtLoop fuel n + 1) := by
  intro fuel
  induction fuel with
  | zero =>
    intro n hn
    have : n = 0 := Nat.le_zero.mp hn
    subst this
    exact ⟨Nat.le_refl 0, Nat.zero_lt_one⟩
  | succ fuel ih =>
    intro n hn
    have hquarter : n / 4 ≤ fuel := by
      rcases Nat.eq_zero_or_pos n with h0 | h0
      · subst h0; exact Nat.zero_le fuel
      · have : n / 4 < n := Nat.div_lt_self h0 (by norm_num)
        omega
    obtain ⟨h1, h2⟩ := ih (n / 4) hquarter
    have hmod := Nat.div_add_mod n 4
    have hmodlt : n % 4 < 4 := Nat.mod_lt n (by norm_num)
    show (if _ then _ else _) * (if _ then _ else _) ≤ n ∧
      n < ((if _ then _ else _) + 1) * ((if _ then _ else _) + 1)
    split_ifs with hif
    · refine ⟨hif, ?_⟩
      have e3 : (natSqrtLoop fuel (n/4) * 2 + 1 + 1) * (natSqrtLoop fuel (n/4) * 2 + 1 + 1)
          = 4 * ((natSqrtLoop fuel (n/4) + 1) * (natSqrtLoop fuel (n/4) + 1)) := by ring
      rw [e3]
      generalize (natSqrtLoop fuel (n/4) + 1) * (natSqrtLoop fuel (n/4) + 1) = B at h2 ⊢
      omega
    · constructor
      · have e1 : natSqrtLoop fuel (n/4) * 2 * (natSqrtLoop fuel (n/4) * 2)
            = 4 * (natSqrtLoop fuel (n/4) * natSqrtLoop fuel (n/4)) := by ring
        rw [e1]
        generalize natSqrtLoop fuel (n/4) * natSqrtLoop fuel (n/4) = A at h1 ⊢
        omega
      · generalize (natSqrtLoop fuel (n/4) * 2 + 1) * (natSqrtLoop fuel (n/4) * 2 + 1) = C at hif ⊢
        omega

theorem natSqrt_eq_sqrt (n : ℕ) : natSqrt n = Nat.sqrt n := by
  obtain ⟨h1, h2⟩ := natSqrtLoop_spec n n (Nat.le_refl n)
  unfold natSqrt
  refine Nat.le_antisymm (Nat.le_sqrt.mpr h1) ?_
  have h3 : Nat.sqrt n < natSqrtLoop n n + 1 := Nat.sqrt_lt.mpr h2
  omega

theorem to_linear_foldl_aux (l : List (ℕ × ℕ)) (a b : ℕ) :
    (l.foldl (fun p x => (p.1 * x.2, p.2 + p.1 * x.1)) (a, b)).2
      = b + a * (l.foldl (fun p x => (p.1 * x.2, p.2 + p.1 * x.1)) (1, 0)).2 := by
  induction l generalizing a b with
  | nil => simp
  | cons x l ih =>
    simp only [List.foldl_cons]
    rw [ih (a * x.2) (b + a * x.1), ih (1 * x.2) (0 + 1 * x.1)]
    ring

theorem to_linear_cons (i s : ℕ) (ix sh : List ℕ) :
    to_linear (i :: ix) (s :: sh) = i + s * to_linear ix sh := by
  unfold to_linear
  simp only [List.zip_cons_cons, List.foldl_cons]
  rw [to_linear_foldl_aux]
  ring_nf

theorem from_linear_to_linear_aux (index shape : List ℕ)
    (h : List.Forall₂ (· < ·) index shape) :
    from_linear (to_linear index shape) shape = index := by
  induction h with
  | nil => rfl
  | @cons a b as bs hab _ ih =>
    have hb : 0 < b := lt_of_le_of_lt (Nat.zero_le a) hab
    rw [to_linear_cons]
    unfold from_linear
    rw [Nat.add_mul_mod_self_left, Nat.mod_eq_of_lt hab,
      Nat.add_mul_div_left _ _ hb, Nat.div_eq_of_lt hab, Nat.zero_add, ih]

theorem to_linear_from_linear_aux (shape : List ℕ) (i : ℕ) (h : i < shape.prod) :
    to_linear (from_linear i shape) shape = i := by
  induction shape generalizing i with
  | nil =>
    simp only [List.prod_nil, Nat.lt_one_iff] at h
    subst h
    rfl
  | cons s sh ih =>
    have hs : 0 < s := by
      rcases Nat.eq_zero_or_pos s with h0 | h0
      · subst h0; simp at h
      · exact h0
    rw [List.prod_cons] at h
    unfold from_linear
    rw [to_linear_cons, ih _ ((Nat.div_lt_iff_lt_mul hs).mpr (by
      rw [Nat.mul_comm]; exact h))]
    exact Nat.mod_add_div i s

/-- C10: the row-major linear-address utilities are mutually inverse: for
a multi-index componentwise strictly below the shape,
`from_linear (to_linear index shape) shape = index`, and for a linear
index below the shape's product, `to_linear (from_linear i shape) shape = i`
(machine `usize` arithmetic is modelled by `ℕ`; the claim's overflow
proviso makes the two agree). -/
theorem linear_index_roundtrip (index shape : List ℕ) (i : ℕ)
    (h1 : List.Forall₂ (· < ·) index shape) (h2 : i < shape.prod) :
    from_linear (to_linear index shape) shape = index ∧
    to_linear (from_linear i shape) shape = i :=
  ⟨from_linear_to_linear_aux index shape h1, to_linear_from_linear_aux shape i h2⟩

/-- C10 witness: the round-trips at shape `[3, 4]`, index `[2, 1]` and
linear address `7`. -/
theorem linear_index_roundtrip_witness :
    from_linear (to_linear [2, 1] [3, 4]) [3, 4] = [2, 1] ∧
    to_linear (from_linear 7 [3, 4]) [3, 4] = 7 :=
  linear_index_roundtrip [2, 1] [3, 4] 7
    (List.Forall₂.cons (by norm_num)
      (List.Forall₂.cons (by norm_num) List.Forall₂.nil))
    (by norm_num)

theorem solveGo_spec {N : ℕ} (cutoff : ℚ) (m : ℕ) (sv : Solver N) :
    (solveGo cutoff m sv).1 ≤ m ∧
    (solveGo cutoff m sv).2 = solveStep^[(solveGo cutoff m sv).1] sv ∧
    (∀ j, j < (solveGo cutoff m sv).1 → solveCond cutoff (solveStep^[j] sv) = true) ∧
    ((solveGo cutoff m sv).1 < m →
      solveCond cutoff (solveStep^[(solveGo cutoff m sv).1] sv) = false) := by
  induction m generalizing sv with
  | zero =>
    exact ⟨le_refl 0, rfl, fun j hj => absurd hj (Nat.not_lt_zero j),
      fun h => absurd h (lt_irrefl 0)⟩
  | succ m ih =>
    by_cases hcond : solveCond cutoff sv = true
    · have hGo : solveGo cutoff (m+1) sv =
          ((solveGo cutoff m (solveStep sv)).1 + 1, (solveGo cutoff m (solveStep sv)).2) := by
        simp [solveGo, hcond]
      obtain ⟨ih1, ih2, ih3, ih4⟩ := ih (solveStep sv)
      rw [hGo]
      refine ⟨Nat.succ_le_succ ih1, ?_, ?_, ?_⟩
      · rw [ih2, Function.iterate_succ_apply]
      · intro j hj
        cases j with
        | zero => simpa using hcond
        | succ j' =>
          rw [Function.iterate_succ_apply]
          exact ih3 j' (Nat.lt_of_succ_lt_succ hj)
      · intro h
        rw [Function.iterate_succ_apply]
        exact ih4 (Nat.lt_of_succ_lt_succ h)
    · have hc : solveCond cutoff sv = false := Bool.eq_false_iff.mpr hcond
      have hGo : solveGo cutoff (m+1) sv = (0, sv) := by simp [solveGo, hc]
      rw [hGo]
      exact ⟨Nat.zero_le _, rfl, fun j hj => absurd hj (Nat.not_lt_zero j),
        fun _ => by simpa using hc⟩

/-- C2: `solve(max_iters, cutoff)` repeats `step_collisions(2.0)` followed
by `step_boundary(1.0)` (one `solveStep`), runs while
`max_penetration > cutoff·radius ∨ boundary_penetration > 0.0001·radius`
held at every executed iteration's start, stops as soon as the condition
fails (unless the budget ran out first), and always terminates returning
the number of iterations executed, at most `max_iters`. -/
theorem solve_spec {N : ℕ} (sv : Solver N) (max_iters : ℕ) (cutoff : ℚ) :
    (sv.solve max_iters cutoff).1 ≤ max_iters ∧
    (sv.solve max_iters cutoff).2 = solveStep^[(sv.solve max_iters cutoff).1] sv ∧
    (∀ j, j < (sv.solve max_iters cutoff).1 →
      solveCond cutoff (solveStep^[j] sv) = true) ∧
    ((sv.solve max_iters cutoff).1 < max_iters →
      solveCond cutoff (solveStep^[(sv.solve max_iters cutoff).1] sv) = false) :=
  solveGo_spec cutoff max_iters sv

/-- The per-point update `step_boundary` applies: a point at positive
distance moves by `-gradient·distance·delta_factor`, any other point is
returned unchanged. -/
theorem boundaryMove_fold_fst {N : ℕ} (v : VolumeQ N) (df : ℚ)
    (pts : List (VecQ N)) (acc : List (VecQ N) × ℚ) :
    (pts.foldl (boundaryMove v df) acc).1 = acc.1 ++ pts.map (fun p =>
      if 0 < v.distance p then
        (fun m => p m - v.gradient p m * v.distance p * df) else p) := by
  induction pts generalizing acc with
  | nil => simp
  | cons p rest ih =>
    by_cases hd : 0 < v.distance p
    · simp only [List.foldl_cons, List.map_cons, ih, boundaryMove, if_pos hd]
      simp [List.append_assoc]
    · simp only [List.foldl_cons, List.map_cons, ih, boundaryMove, if_neg hd]
      simp [List.append_assoc]

theorem step_boundary_points_map {N : ℕ} (sv : Solver N) (df : ℚ) :
    (sv.step_boundary df).points = sv.points.map (fun p =>
      if 0 < sv.volume.volume.distance p then
        (fun m => p m - sv.volume.volume.gradient p m *
          sv.volume.volume.distance p * df) else p) := by
  show (sv.points.foldl (boundaryMove sv.volume.volume df) ([], 0)).1 = _
  rw [boundaryMove_fold_fst]
  simp

/-- C3: `step_boundary(delta_factor)` leaves every point whose field
distance is `≤ 0` exactly unchanged; consequently a point set in which
every point satisfies `distance(p) ≤ 0` gets zero displacement for every
point. -/
theorem step_boundary_frame {N : ℕ} (sv : Solver N) (df : ℚ) :
    (∀ i, i < sv.points.length →
      sv.volume.volume.distance (sv.points.getD i vzero) ≤ 0 →
      (sv.step_boundary df).points.getD i vzero = sv.points.getD i vzero) ∧
    ((∀ p ∈ sv.points, sv.volume.volume.distance p ≤ 0) →
      (sv.step_boundary df).points = sv.points) := by
  constructor
  · intro i hi hd
    rw [step_boundary_points_map]
    have hlen : i < (sv.points.map (fun p =>
        if 0 < sv.volume.volume.distance p then
          (fun m => p m - sv.volume.volume.gradient p m *
            sv.volume.volume.distance p * df) else p)).length := by
      simpa using hi
    rw [List.getD_eq_getElem _ _ hi] at hd
    rw [List.getD_eq_getElem _ _ hlen, List.getElem_map,
      List.getD_eq_getElem _ _ hi]
    exact if_neg (not_lt.mpr hd)
  · intro hall
    rw [step_boundary_points_map]
    have : ∀ p ∈ sv.points, (if 0 < sv.volume.volume.distance p then
        (fun m => p m - sv.volume.volume.gradient p m *
          sv.volume.volume.distance p * df) else p) = id p := by
      intro p hp
      simp [if_neg (not_lt.mpr (hall p hp))]
    rw [List.map_congr_left this, List.map_id]

theorem vec_sum_cons {N : ℕ} (a : VecQ N) (l : List (VecQ N)) (m : Fin N) :
    vec_sum (a :: l) m = a m + vec_sum l m := rfl

theorem collisionInner_fold_fst {N : ℕ} (radius : ℚ) (p : VecQ N)
    (pts : List (VecQ N)) (l : List ℕ) (d0 : VecQ N) (m0 : ℚ) :
    (l.foldl (collisionInner radius p pts) (d0, m0)).1 =
      fun m => d0 m +
        vec_sum (l.map (fun j => collision_delta radius p (pts.getD j vzero))) m := by
  induction l generalizing d0 m0 with
  | nil =>
    funext m
    simp [vec_sum, vzero]
  | cons j l ih =>
    simp only [List.foldl_cons]
    rw [show collisionInner radius p pts (d0, m0) j =
      ((collisionInner radius p pts (d0, m0) j).1,
       (collisionInner radius p pts (d0, m0) j).2) from rfl]
    rw [ih]
    funext m
    simp only [List.map_cons, vec_sum_cons]
    by_cases h : 0 < radius * 2 - normQ (fun m2 => p m2 - pts.getD j vzero m2)
    · simp only [collisionInner, collision_delta, if_pos h]
      ring
    · simp only [collisionInner, collision_delta, if_neg h]
      simp [vzero]

theorem collisionInner_fold_snd {N : ℕ} (radius : ℚ) (p : VecQ N)
    (pts : List (VecQ N)) (l : List ℕ) (d0 : VecQ N) (m0 : ℚ) :
    (l.foldl (collisionInner radius p pts) (d0, m0)).2 =
      (l.map (fun j =>
        radius * 2 - normQ (fun m => p m - pts.getD j vzero m))).foldl max m0 := by
  induction l generalizing d0 m0 with
  | nil => rfl
  | cons j l ih =>
    simp only [List.foldl_cons, List.map_cons]
    rw [show collisionInner radius p pts (d0, m0) j =
      ((collisionInner radius p pts (d0, m0) j).1,
       (collisionInner radius p pts (d0, m0) j).2) from rfl]
    rw [ih]
    rfl

theorem collisionOuter_fold_fst {N : ℕ} (g : VolumeGrid N) (radius : ℚ)
    (pts : List (VecQ N)) (n : ℕ) (acc1 : List (VecQ N)) (m0 : ℚ) :
    ((List.range n).foldl (collisionOuter g radius pts) (acc1, m0)).1 =
      acc1 ++ (List.range n).map (point_delta g radius pts) := by
  induction n generalizing acc1 m0 with
  | zero => simp
  | succ n ih =>
    rw [List.range_succ, List.foldl_append, List.foldl_cons, List.foldl_nil]
    rw [show (List.range n).foldl (collisionOuter g radius pts) (acc1, m0) =
      (((List.range n).foldl (collisionOuter g radius pts) (acc1, m0)).1,
       ((List.range n).foldl (collisionOuter g radius pts) (acc1, m0)).2) from rfl]
    show ((List.range n).foldl (collisionOuter g radius pts) (acc1, m0)).1 ++ _ = _
    rw [ih, collisionInner_fold_fst, List.map_append, List.append_assoc]
    congr 2
    simp only [List.map_singleton]
    congr 1
    funext m
    simp [point_delta, vzero]

theorem collisionOuter_fold_snd {N : ℕ} (g : VolumeGrid N) (radius : ℚ)
    (pts : List (VecQ N)) (n : ℕ) (acc1 : List (VecQ N)) (m0 : ℚ) :
    ((List.range n).foldl (collisionOuter g radius pts) (acc1, m0)).2 =
      ((List.range n).flatMap (fun i => (neighbor_list g pts i).map (fun j =>
        radius * 2 - normQ (fun m => pts.getD i vzero m - pts.getD j vzero m)))).foldl
        max m0 := by
  induction n generalizing acc1 m0 with
  | zero => rfl
  | succ n ih =>
    rw [List.range_succ, List.foldl_append, List.foldl_cons, List.foldl_nil,
      List.flatMap_append, List.foldl_append]
    rw [show (List.range n).foldl (collisionOuter g radius pts) (acc1, m0) =
      (((List.range n).foldl (collisionOuter g radius pts) (acc1, m0)).1,
       ((List.range n).foldl (collisionOuter g radius pts) (acc1, m0)).2) from rfl]
    show ((neighbor_list g pts n).foldl (collisionInner radius _ pts) (vzero, _)).2 = _
    rw [collisionInner_fold_snd, ih]
    simp

theorem foldl_max_init_le (l : List ℚ) (a : ℚ) : a ≤ l.foldl max a := by
  induction l generalizing a with
  | nil => exact le_refl a
  | cons x l ih => exact le_trans (le_max_left a x) (ih (max a x))

theorem foldl_max_le_of_mem (l : List ℚ) (a x : ℚ) (hx : x ∈ l) :
    x ≤ l.foldl max a := by
  induction l generalizing a with
  | nil => cases hx
  | cons y l ih =>
    rcases List.mem_cons.mp hx with h | h
    · subst h
      exact le_trans (le_max_right a x) (foldl_max_init_le l (max a x))
    · exact ih (max a y) h

theorem foldl_max_eq_init (l : List ℚ) (a : ℚ) (h : ∀ x ∈ l, x ≤ a) :
    l.foldl max a = a := by
  induction l generalizing a with
  | nil => rfl
  | cons x l ih =>
    rw [List.foldl_cons, max_eq_left (h x (List.mem_cons_self x l))]
    exact ih a (fun y hy => h y (List.mem_cons_of_mem x hy))

theorem foldl_max_mem (l : List ℚ) (a : ℚ) :
    l.foldl max a = a ∨ l.foldl max a ∈ l := by
  induction l generalizing a with
  | nil => exact Or.inl rfl
  | cons x l ih =>
    rw [List.foldl_cons]
    rcases ih (max a x) with h | h
    · rcases max_choice a x with hm | hm
      · exact Or.inl (h.trans hm)
      · exact Or.inr (List.mem_cons.mpr (Or.inl (h.trans hm)))
    · exact Or.inr (List.mem_cons_of_mem x h)

/-- C1: in `step_collisions(delta_factor)`, every point `i` moves by
`delta_factor` times the sum, over every other point `q` found in its
`3^N`-cell neighborhood with `|p-q| < 2·radius`, of the correction of
magnitude `(2·radius - |p-q|)/2` directed along `(p-q)/|p-q|`
(`point_delta`, computed wholly from the snapshot `sv.points` and applied
simultaneously); and the resulting `max_penetration` is the fold of `max`
from `0` over the penetrations of all evaluated pairs — so it is the worst
observed value whenever some pair penetrates, and exactly `0` (hence "zero
or negative" as claimed) when no pair does. -/
theorem step_collisions_spec {N : ℕ} (sv : Solver N) (df : ℚ) (i : ℕ)
    (hi : i < sv.points.length) :
    (sv.step_collisions df).points.getD i vzero =
      (fun m => sv.points.getD i vzero m +
        point_delta sv.volume sv.radius sv.points i m * df) ∧
    (sv.step_collisions df).max_penetration =
      (((pair_penetrations sv).foldl max 0 : ℚ) : WithTop ℚ) ∧
    ((∀ x ∈ pair_penetrations sv, x ≤ 0) →
      (sv.step_collisions df).max_penetration = ((0 : ℚ) : WithTop ℚ)) ∧
    (∀ x ∈ pair_penetrations sv,
      ((x : ℚ) : WithTop ℚ) ≤ (sv.step_collisions df).max_penetration) ∧
    ((∃ x ∈ pair_penetrations sv, 0 < x) →
      ∃ w ∈ pair_penetrations sv,
        (sv.step_collisions df).max_penetration = ((w : ℚ) : WithTop ℚ)) := by
  have hfst : ((List.range sv.points.length).foldl
      (collisionOuter sv.volume sv.radius sv.points) ([], 0)).1 =
      (List.range sv.points.length).map (point_delta sv.volume sv.radius sv.points) := by
    rw [collisionOuter_fold_fst]
    rfl
  have hsnd : ((List.range sv.points.length).foldl
      (collisionOuter sv.volume sv.radius sv.points) ([], 0)).2 =
      (pair_penetrations sv).foldl max 0 := by
    rw [collisionOuter_fold_snd]
    rfl
  have hpts : (sv.step_collisions df).points =
      List.zipWith (fun p d => fun m => p m + d m * df) sv.points
        ((List.range sv.points.length).map (point_delta sv.volume sv.radius sv.points)) := by
    show List.zipWith _ sv.points ((List.range sv.points.length).foldl
      (collisionOuter sv.volume sv.radius sv.points) ([], 0)).1 = _
    rw [hfst]
  have hpen : (sv.step_collisions df).max_penetration =
      (((pair_penetrations sv).foldl max 0 : ℚ) : WithTop ℚ) := by
    show (((List.range sv.points.length).foldl
      (collisionOuter sv.volume sv.radius sv.points) ([], 0)).2 : WithTop ℚ) = _
    rw [hsnd]
  refine ⟨?_, hpen, ?_, ?_, ?_⟩
  · rw [hpts]
    have hlen : i < (List.zipWith (fun p d => fun m => p m + d m * df) sv.points
        ((List.range sv.points.length).map
          (point_delta sv.volume sv.radius sv.points))).length := by
      simpa using hi
    rw [List.getD_eq_getElem _ _ hlen, List.getElem_zipWith,
      List.getD_eq_getElem _ _ hi]
    rw [List.getElem_map, List.getElem_range]
  · intro hall
    rw [hpen, foldl_max_eq_init _ _ hall]
  · intro x hx
    rw [hpen]
    exact_mod_cast foldl_max_le_of_mem _ _ _ hx
  · rintro ⟨x, hx, hxpos⟩
    rcases foldl_max_mem (pair_penetrations sv) 0 with h | h
    · exact absurd (h ▸ foldl_max_le_of_mem _ 0 x hx) (not_le.mpr hxpos)
    · exact ⟨_, h, hpen⟩

/-- C1 witness: the demo two-point 1D state at `delta_factor = 2`. -/
theorem step_collisions_spec_witness :
    (demoSolver.step_collisions 2).points.getD 0 vzero =
      (fun m => demoSolver.points.getD 0 vzero m +
        point_delta demoSolver.volume demoSolver.radius demoSolver.points 0 m * 2) ∧
    (demoSolver.step_collisions 2).max_penetration =
      (((pair_penetrations demoSolver).foldl max 0 : ℚ) : WithTop ℚ) ∧
    ((∀ x ∈ pair_penetrations demoSolver, x ≤ 0) →
      (demoSolver.step_collisions 2).max_penetration = ((0 : ℚ) : WithTop ℚ)) ∧
    (∀ x ∈ pair_penetrations demoSolver,
      ((x : ℚ) : WithTop ℚ) ≤ (demoSolver.step_collisions 2).max_penetration) ∧
    ((∃ x ∈ pair_penetrations demoSolver, 0 < x) →
      ∃ w ∈ pair_penetrations demoSolver,
        (demoSolver.step_collisions 2).max_penetration = ((w : ℚ) : WithTop ℚ)) :=
  step_collisions_spec demoSolver 2 0 (by decide)

theorem createGridStep_fold {N : ℕ} (v : VolumeQ N) (cs : ℚ) (offset : Fin N → ℤ)
    (size : Fin N → ℕ) (n : ℕ) (a : List Cell) (b c : List (Fin N → ℤ)) :
    ((List.range n).foldl (createGridStep v cs offset size) (a, b, c)) =
      (a ++ (List.range n).map (fun idx =>
        classifyCell (scaledCenterDist v cs (gridPos offset size idx))),
       b ++ (List.range n).filterMap (fun idx =>
         if classifyCell (scaledCenterDist v cs (gridPos offset size idx)) = Cell.Inside
         then some (gridPos offset size idx) else none),
       c ++ (List.range n).filterMap (fun idx =>
         if classifyCell (scaledCenterDist v cs (gridPos offset size idx)) = Cell.Border
         then some (gridPos offset size idx) else none)) := by
  induction n with
  | zero => simp
  | succ n ih =>
    rw [List.range_succ, List.foldl_append, List.foldl_cons, List.foldl_nil, ih,
      List.map_append, List.filterMap_append, List.filterMap_append]
    cases hty : classifyCell (scaledCenterDist v cs (gridPos offset size n)) with
    | Inside => simp [createGridStep, hty, List.append_assoc]
    | Outside => simp [createGridStep, hty, List.append_assoc]
    | Border => simp [createGridStep, hty, List.append_assoc]

/-- C6: `create_grid` stores the integer offset `floor(min_bound/cell_size)`
per axis, classifies every cell by the distance at the cell center
`(pos + 0.5)·cell_size` scaled by `SQRT_2/cell_size` (`scaledCenterDist`)
under the fixed three-way threshold (`< -1` Inside, `> 1` Outside,
otherwise Border), and appends exactly the Inside- and Border-classified
cell coordinates, in traversal order, to `inside_cells` and
`border_cells`. -/
theorem create_grid_spec {N : ℕ} (v : VolumeQ N) (cs : ℚ) :
    (v.create_grid cs).offset = (fun i => ⌊v.min_bound i / cs⌋) ∧
    (v.create_grid cs).cells =
      (List.range (List.ofFn (gridSize v cs)).prod).map (fun idx =>
        classifyCell (scaledCenterDist v cs
          (gridPos (fun i => ⌊v.min_bound i / cs⌋) (gridSize v cs) idx))) ∧
    (v.create_grid cs).inside_cells =
      (List.range (List.ofFn (gridSize v cs)).prod).filterMap (fun idx =>
        if classifyCell (scaledCenterDist v cs
            (gridPos (fun i => ⌊v.min_bound i / cs⌋) (gridSize v cs) idx)) = Cell.Inside
        then some (gridPos (fun i => ⌊v.min_bound i / cs⌋) (gridSize v cs) idx)
        else none) ∧
    (v.create_grid cs).border_cells =
      (List.range (List.ofFn (gridSize v cs)).prod).filterMap (fun idx =>
        if classifyCell (scaledCenterDist v cs
            (gridPos (fun i => ⌊v.min_bound i / cs⌋) (gridSize v cs) idx)) = Cell.Border
        then some (gridPos (fun i => ⌊v.min_bound i / cs⌋) (gridSize v cs) idx)
        else none) ∧
    (∀ d : ℚ, (classifyCell d = Cell.Inside ↔ d < -1) ∧
      (classifyCell d = Cell.Outside ↔ 1 < d) ∧
      (classifyCell d = Cell.Border ↔ -1 ≤ d ∧ d ≤ 1)) := by
  have h := createGridStep_fold v cs (fun i => ⌊v.min_bound i / cs⌋)
    (gridSize v cs) (List.ofFn (gridSize v cs)).prod [] [] []
  refine ⟨rfl, ?_, ?_, ?_, ?_⟩
  · show ((List.range (List.ofFn (gridSize v cs)).prod).foldl
      (createGridStep v cs (fun i => ⌊v.min_bound i / cs⌋) (gridSize v cs))
      ([], [], [])).1 = _
    rw [h]
    exact List.nil_append _
  · show ((List.range (List.ofFn (gridSize v cs)).prod).foldl
      (createGridStep v cs (fun i => ⌊v.min_bound i / cs⌋) (gridSize v cs))
      ([], [], [])).2.1 = _
    rw [h]
    exact List.nil_append _
  · show ((List.range (List.ofFn (gridSize v cs)).prod).foldl
      (createGridStep v cs (fun i => ⌊v.min_bound i / cs⌋) (gridSize v cs))
      ([], [], [])).2.2 = _
    rw [h]
    exact List.nil_append _
  · intro d
    refine ⟨?_, ?_, ?_⟩ <;> unfold classifyCell <;> split_ifs with h1 h2 <;>
      simp_all <;> linarith

/-- C4 (amended): the `sample_white` loop is a sequence of independent
attempts: each iteration draws a fresh cell (uniformly among inside ++
border cells) and a fresh point, consuming `1 + N` stream values; an
inside-cell draw returns immediately (no containment check), a border draw
returns only if `contains` accepts, and on rejection the whole draw —
cell included — is restarted.  `sample_white` returns the first attempt
that succeeds. -/
theorem sample_white_attempts {N : ℕ} (g : VolumeGrid N) (s : ℕ → ℚ)
    (fuel k : ℕ) :
    g.sample_white s fuel k =
      (List.range fuel).findSome? (fun j => sample_attempt g s (k + j * (1 + N))) := by
  induction fuel generalizing k with
  | zero => rfl
  | succ fuel ih =>
    rw [List.range_succ_eq_map, List.findSome?_cons]
    show (sample_white_aux g s (fuel+1) k).1 = _
    by_cases h1 : gen_range_nat s k (g.inside_cells.length + g.border_cells.length)
        < g.inside_cells.length
    · simp only [sample_white_aux, sample_attempt, if_pos h1, Nat.zero_mul,
        Nat.add_zero]
    · by_cases h2 : g.volume.contains (fun i =>
        sampleOffsets g.cell_size s k i +
          ((g.border_cells.getD
            (gen_range_nat s k (g.inside_cells.length + g.border_cells.length) -
              g.inside_cells.length) (fun _ => 0)) i : ℚ) * g.cell_size) = true
      · simp only [sample_white_aux, sample_attempt, if_neg h1, Nat.zero_mul,
          Nat.add_zero, if_pos h2]
      · have h2f : g.volume.contains (fun i =>
          sampleOffsets g.cell_size s k i +
            ((g.border_cells.getD
              (gen_range_nat s k (g.inside_cells.length + g.border_cells.length) -
                g.inside_cells.length) (fun _ => 0)) i : ℚ) * g.cell_size) = false :=
          Bool.eq_false_iff.mpr h2
        simp only [sample_white_aux, sample_attempt, if_neg h1, Nat.zero_mul,
          Nat.add_zero, h2f, Bool.false_eq_true, if_false]
        rw [show (sample_white_aux g s fuel (k + 1 + N)).1 =
          g.sample_white s fuel (k + 1 + N) from rfl]
        rw [ih (k + 1 + N), List.findSome?_map]
        congr 1
        funext j
        show sample_attempt g s (k + 1 + N + j * (1 + N)) =
          sample_attempt g s (k + (j + 1) * (1 + N))
        congr 1
        ring

/-- C4 counterexample: running `sample_white` on the `interval1` grid with
the stream `c4stream`, the first loop iteration draws cell index 1 — the
border cell `-1` (the grid has one inside cell and two border cells) — and
its point is rejected by `contains`; the claim says the sampler then
redraws within that same cell until `contains` accepts, but the run
returns the point `1/4`, which lies in cell `0` (the inside cell), because
the loop redraws the cell as well. -/
theorem sample_white_redraws_new_cell_cex :
    (interval1.create_grid 1).inside_cells.length = 1 ∧
    (interval1.create_grid 1).border_cells.length = 2 ∧
    gen_range_nat c4stream 0 ((interval1.create_grid 1).inside_cells.length +
      (interval1.create_grid 1).border_cells.length) = 1 ∧
    (interval1.create_grid 1).border_cells.getD 0 (fun _ => 0) = (fun _ => -1) ∧
    sample_attempt (interval1.create_grid 1) c4stream 0 = none ∧
    ((interval1.create_grid 1).sample_white c4stream 5 0).map (fun p => p 0) =
      some (1/4) ∧
    ((interval1.create_grid 1).sample_white c4stream 5 0).map
      (fun p => (interval1.create_grid 1).containing_cell p 0) = some 0 := by
  refine ⟨?_, ?_, ?_, ?_, ?_, ?_, ?_⟩ <;> decide

/-- C7 evidence: `step_collisions` has no guard on its normalization.  Two
exactly-coincident points (both at `1/2`, radius 1, cell size 1) find each
other in the neighbor scan, their distance is `0`, the penetration `2 > 0`
is taken, and the separating direction `(p-q)/dist = 0/0` is NaN; under
the NaN-aware arithmetic the written positions of both points are NaN
(`none`), contradicting the claim that every normalization site is guarded
by a small-magnitude threshold with a fallback direction. -/
theorem step_collisions_coincident_nan :
    neighbor_list (interval1.create_grid 1)
      [fun _ => 1/2, fun _ => 1/2] 0 = [1] ∧
    normQ (fun m : Fin 1 =>
      ([fun _ => (1:ℚ)/2, fun _ => (1:ℚ)/2].getD 0 vzero) m -
      ([fun _ => (1:ℚ)/2, fun _ => (1:ℚ)/2].getD 1 vzero) m) = 0 ∧
    (step_collisions_nan (interval1.create_grid 1) 1 2
      [fun _ => 1/2, fun _ => 1/2]).map (fun v => v 0) = [none, none] := by
  refine ⟨?_, ?_, ?_⟩ <;> decide

theorem sqrtQ_nonneg (q : ℚ) : 0 ≤ sqrtQ q := by
  unfold sqrtQ
  exact div_nonneg (Nat.cast_nonneg _) (Nat.cast_nonneg _)

theorem distance_to_line_nonneg {N : ℕ} (a b x : VecQ N) :
    0 ≤ distance_to_line a b x :=
  sqrtQ_nonneg _

theorem polyEdgeFold_aux_nonneg (p : VecQ 2) (poly : List (VecQ 2)) (d0 : ℚ)
    (b : VecQ 2) (h : 0 ≤ d0) :
    0 ≤ (poly.foldl (fun (st : ℚ × VecQ 2) a =>
      (min st.1 (distance_to_line a st.2 p), a)) (d0, b)).1 := by
  induction poly generalizing d0 b with
  | nil => exact h
  | cons a rest ih =>
    exact ih _ _ (le_min h (distance_to_line_nonneg a b p))

theorem polyEdgeFold_nonneg (p : VecQ 2) (poly : List (VecQ 2)) (d0 : ℚ)
    (h : 0 ≤ d0) : 0 ≤ polyEdgeFold p poly d0 :=
  polyEdgeFold_aux_nonneg p poly d0 _ h

theorem min_edge_dist_nonneg (P : PolygonArea) (p : VecQ 2) :
    0 ≤ P.min_edge_dist p := by
  unfold PolygonArea.min_edge_dist
  have hgen : ∀ (l : List (List (VecQ 2))) (d0 : ℚ), 0 ≤ d0 →
      0 ≤ l.foldl (fun d poly => polyEdgeFold p poly d) d0 := by
    intro l
    induction l with
    | nil => intro d0 h; exact h
    | cons poly rest ih =>
      intro d0 h
      exact ih _ (polyEdgeFold_nonneg p poly d0 h)
  refine hgen _ _ ?_
  unfold f32MaxC
  norm_num

/-- C8 (amended): `contains(p) ⇔ distance(p) ≤ 0` holds for the padded
wrapper outright (its containment is defined as the offset-shifted
distance being `≤ 0`) and for the polygon variant at every point whose
minimum edge distance is nonzero; it fails only at points exactly on a
polygon edge that the even-odd rule excludes (see the counterexample). -/
theorem contains_iff_distance_nonpos {N : ℕ} (v : VolumeQ N) (off : ℚ)
    (p : VecQ N) (P : PolygonArea) (q : VecQ 2)
    (h : P.min_edge_dist q ≠ 0) :
    ((v.pad off).contains p = true ↔ (v.pad off).distance p ≤ 0) ∧
    (P.contains q = true ↔ P.distance q ≤ 0) := by
  constructor
  · simp [VolumeQ.pad]
  · have hpos : 0 < P.min_edge_dist q :=
      lt_of_le_of_ne (min_edge_dist_nonneg P q) (Ne.symm h)
    unfold PolygonArea.distance
    by_cases hc : P.contains q = true
    · simp only [hc, if_true]
      constructor
      · intro _
        linarith
      · intro _
        trivial
    · have hcf : P.contains q = false := Bool.eq_false_iff.mpr hc
      simp only [hcf, Bool.false_eq_true, if_false]
      constructor
      · intro habs
        exact absurd habs (by norm_num)
      · intro hle
        exact absurd hle (not_le.mpr hpos)

set_option maxRecDepth 100000 in
/-- C8 witness: the padded `interval1` at the origin, and the square's
center `(1/2, 1/2)` whose minimum edge distance is `1/2 ≠ 0`. -/
theorem contains_iff_distance_nonpos_witness :
    (((interval1.pad 1).contains (fun _ => 0) = true ↔
      (interval1.pad 1).distance (fun _ => 0) ≤ 0) ∧
    (unit_square.contains centerPoint = true ↔
      unit_square.distance centerPoint ≤ 0)) :=
  contains_iff_distance_nonpos interval1 1 (fun _ => 0) unit_square centerPoint
    (by decide)

set_option maxRecDepth 100000 in
/-- C8 counterexample: the point `(1, 1/2)` lies exactly on the right edge
of the unit square; the even-odd rule rejects it (`contains = false`)
while the signed distance evaluates to `+0`, so `distance ≤ 0` holds and
the claimed equivalence fails. -/
theorem polygon_edge_point_cex :
    unit_square.contains edgePoint = false ∧
    unit_square.distance edgePoint = 0 ∧
    ¬(unit_square.contains edgePoint = true ↔
      unit_square.distance edgePoint ≤ 0) := by
  refine ⟨by decide, by decide, by decide⟩

/-- C9: the full sample→pack pipeline is deterministic in its injected
randomness: two runs given the same seeded generator state (the same
stream), the same domain and the same arguments produce identical outputs,
both for `packed_points_with_rng` (sample → solve) and for
`random_points_with_rng` — every stochastic choice reads the injected
stream, and the solver's spatial hash is only ever queried by key, never
iterated. -/
theorem packed_pipeline_deterministic {N : ℕ} (v : VolumeQ N)
    (st : PackedSettings) (count : ℕ) (cell_size : ℚ) (fuel : ℕ)
    (s₁ s₂ : ℕ → ℚ) (h : s₁ = s₂) :
    v.packed_points_with_rng st s₁ = v.packed_points_with_rng st s₂ ∧
    v.random_points_with_rng count cell_size s₁ fuel =
      v.random_points_with_rng count cell_size s₂ fuel := by
  subst h
  exact ⟨rfl, rfl⟩

/-- C9 witness: two runs of the pipeline on `interval1` with the same
constant stream coincide. -/
theorem packed_pipeline_deterministic_witness :
    interval1.packed_points_with_rng demoSettings halfStream =
      interval1.packed_points_with_rng demoSettings halfStream ∧
    interval1.random_points_with_rng 2 1 halfStream 3 =
      interval1.random_points_with_rng 2 1 halfStream 3 :=
  packed_pipeline_deterministic interval1 demoSettings 2 1 3 halfStream halfStream
    rfl

theorem rem_euclid_nonneg (x s : ℚ) (hs : 0 < s) : 0 ≤ rem_euclid x s := by
  unfold rem_euclid
  rw [sub_nonneg]
  calc s * ⌊x / s⌋ ≤ s * (x / s) :=
        mul_le_mul_of_nonneg_left (Int.floor_le (x / s)) (le_of_lt hs)
    _ = x := mul_div_cancel₀ x (ne_of_gt hs)

theorem rem_euclid_lt (x s : ℚ) (hs : 0 < s) : rem_euclid x s < s := by
  unfold rem_euclid
  have h := Int.lt_floor_add_one (x / s)
  have h2 : x / s * s < ((⌊x / s⌋ : ℚ) + 1) * s := mul_lt_mul_of_pos_right h hs
  rw [div_mul_cancel₀ x (ne_of_gt hs)] at h2
  linarith

theorem from_linear_getD_lt : ∀ (shape : List ℕ) (idx n : ℕ),
    n < shape.length → 0 < shape.getD n 0 →
    (from_linear idx shape).getD n 0 < shape.getD n 0 := by
  intro shape
  induction shape with
  | nil => intro idx n hn; exact absurd hn (by simp)
  | cons s sh ih =>
    intro idx n hn hpos
    cases n with
    | zero => exact Nat.mod_lt idx hpos
    | succ n => exact ih (idx / s) n (by simpa using hn) hpos

theorem from_linear_vec_lt {N : ℕ} (idx : ℕ) (shape : Fin N → ℕ) (i : Fin N)
    (h : 0 < shape i) : from_linear_vec idx shape i < shape i := by
  unfold from_linear_vec
  have hlen : (i : ℕ) < (List.ofFn shape).length := by simp [i.isLt]
  have hsh : (List.ofFn shape).getD (i : ℕ) 0 = shape i := by
    rw [List.getD_eq_getElem _ _ hlen, List.getElem_ofFn]
  have := from_linear_getD_lt (List.ofFn shape) idx (i : ℕ) hlen (hsh ▸ h)
  rwa [hsh] at this

theorem ofFn_prod_pos {N : ℕ} (shape : Fin N → ℕ) (li : ℕ)
    (h : li < (List.ofFn shape).prod) (i : Fin N) : 0 < shape i := by
  by_contra h0
  have hz : shape i = 0 := Nat.eq_zero_of_not_pos h0
  have : (0 : ℕ) ∈ List.ofFn shape := by
    rw [List.mem_ofFn]
    exact ⟨i, hz⟩
  rw [List.prod_eq_zero this] at h
  exact Nat.not_lt_zero li h

theorem foreach_grid_in_rect_bounds {N : ℕ} (offset size ro rs : VecQ N)
    (p : VecQ N) (hp : p ∈ foreach_grid_in_rect offset size ro rs)
    (hsz : ∀ i, 0 < size i) (i : Fin N) : ro i ≤ p i ∧ p i < ro i + rs i := by
  unfold foreach_grid_in_rect at hp
  obtain ⟨li, hli, hpeq⟩ := List.mem_map.mp hp
  rw [List.mem_range] at hli
  subst hpeq
  set off : VecQ N := fun j => rem_euclid (offset j - ro j) (size j) with hoff
  set shape : Fin N → ℕ := fun j => (⌈(rs j - off j) / size j⌉).toNat with hshape
  have hoffb : 0 ≤ off i := rem_euclid_nonneg _ _ (hsz i)
  have hofflt : off i < size i := rem_euclid_lt _ _ (hsz i)
  have hspos : 0 < shape i := ofFn_prod_pos shape li hli i
  have hk : from_linear_vec li shape i < shape i := from_linear_vec_lt li shape i hspos
  constructor
  · have h1 : (0 : ℚ) ≤ (from_linear_vec li shape i : ℚ) * size i :=
      mul_nonneg (Nat.cast_nonneg _) (le_of_lt (hsz i))
    simp only []
    linarith
  · -- k ≤ shape i - 1 and (shape i : ℤ) = ⌈(rs-off)/size⌉, with ⌈x⌉ - 1 < x
    have hceil : (shape i : ℤ) = ⌈(rs i - off i) / size i⌉ := by
      rw [hshape]
      exact Int.toNat_of_nonneg (by
        by_contra hneg
        push_neg at hneg
        have : (⌈(rs i - off i) / size i⌉).toNat = 0 := Int.toNat_of_nonpos (le_of_lt hneg)
        rw [hshape] at hspos
        simp only at hspos
        omega)
    have hklt : ((from_linear_vec li shape i : ℚ)) < (rs i - off i) / size i := by
      have h1 : (from_linear_vec li shape i : ℤ) + 1 ≤ (shape i : ℤ) := by
        exact_mod_cast hk
      have h2 : ((shape i : ℚ) : ℚ) - 1 < (rs i - off i) / size i := by
        have hc : ((⌈(rs i - off i) / size i⌉ : ℚ)) < (rs i - off i) / size i + 1 :=
          Int.ceil_lt_add_one _
        have : ((shape i : ℚ)) = ((⌈(rs i - off i) / size i⌉ : ℤ) : ℚ) := by
          exact_mod_cast congrArg (fun z : ℤ => (z : ℚ)) hceil
        rw [this]
        linarith
      have h3 : ((from_linear_vec li shape i : ℚ)) + 1 ≤ (shape i : ℚ) := by
        exact_mod_cast h1
      linarith
    have h4 : (from_linear_vec li shape i : ℚ) * size i < rs i - off i := by
      have := mul_lt_mul_of_pos_right hklt (hsz i)
      rwa [div_mul_cancel₀ _ (ne_of_gt (hsz i))] at this
    simp only []
    linarith

theorem classifyCell_inside_iff (d : ℚ) : classifyCell d = Cell.Inside ↔ d < -1 := by
  unfold classifyCell
  split_ifs with h1 h2 <;> simp_all

theorem mem_inside_cells_scaled {N : ℕ} (v : VolumeQ N) (cs : ℚ) (c : Fin N → ℤ)
    (hc : c ∈ (v.create_grid cs).inside_cells) : scaledCenterDist v cs c < -1 := by
  have h := createGridStep_fold v cs (fun i => ⌊v.min_bound i / cs⌋)
    (gridSize v cs) (List.ofFn (gridSize v cs)).prod [] [] []
  have hins : (v.create_grid cs).inside_cells =
      (List.range (List.ofFn (gridSize v cs)).prod).filterMap (fun idx =>
        if classifyCell (scaledCenterDist v cs
            (gridPos (fun i => ⌊v.min_bound i / cs⌋) (gridSize v cs) idx)) = Cell.Inside
        then some (gridPos (fun i => ⌊v.min_bound i / cs⌋) (gridSize v cs) idx)
        else none) := by
    show ((List.range (List.ofFn (gridSize v cs)).prod).foldl
      (createGridStep v cs (fun i => ⌊v.min_bound i / cs⌋) (gridSize v cs))
      ([], [], [])).2.1 = _
    rw [h]
    exact List.nil_append _
  rw [hins] at hc
  obtain ⟨idx, _, hidx⟩ := List.mem_filterMap.mp hc
  by_cases hcl : classifyCell (scaledCenterDist v cs
      (gridPos (fun i => ⌊v.min_bound i / cs⌋) (gridSize v cs) idx)) = Cell.Inside
  · rw [if_pos hcl] at hidx
    have hpos := Option.some_injective _ hidx
    rw [← hpos]
    exact (classifyCell_inside_iff _).mp hcl
  · rw [if_neg hcl] at hidx
    exact absurd hidx (by simp)

theorem sqrt2C_pos : (0 : ℚ) < sqrt2C := by norm_num [sqrt2C]

theorem sqrt2C_sq_le_two : sqrt2C ^ 2 ≤ 2 := by norm_num [sqrt2C]

/-- The core band-soundness argument: a 1-Lipschitz distance field that is
below `-cell_size/SQRT_2` at a cell's center is `≤ 0` everywhere in the
half-open cell cube, provided the dimension is at most 2 (so the cube's
corner radius `(√N/2)·cell_size` is within the band). -/
theorem inside_cell_point_contains {N : ℕ} (v : VolumeQ N) (cs : ℚ)
    (c : Fin N → ℤ) (p : VecQ N)
    (hN : N ≤ 2) (hcs : 0 < cs) (hlip : LipschitzSq v) (hcons : SdfConsistent v)
    (hscaled : scaledCenterDist v cs c < -1)
    (hp : ∀ i, (c i : ℚ) * cs ≤ p i ∧ p i < (c i : ℚ) * cs + cs) :
    v.contains p = true := by
  set center : VecQ N := fun i => ((c i : ℚ) + 1/2) * cs with hcenter
  have hq : (0:ℚ) < sqrt2C := sqrt2C_pos
  have hdc : v.distance center * sqrt2C / cs < -1 := hscaled
  have hdc2 : v.distance center < -cs / sqrt2C := by
    rw [div_lt_iff hcs] at hdc
    rw [lt_div_iff hq]
    linarith
  by_contra hnc
  have hdp : 0 < v.distance p := by
    rcases lt_or_le 0 (v.distance p) with h | h
    · exact h
    · exact absurd ((hcons p).mpr h) hnc
  have hbound : normSq (fun m => p m - center m) ≤ (N : ℚ) * (cs/2)^2 := by
    unfold normSq
    calc ∑ i, (p i - center i) * (p i - center i)
        ≤ ∑ _i : Fin N, (cs/2)^2 := by
          refine Finset.sum_le_sum (fun i _ => ?_)
          obtain ⟨h1, h2⟩ := hp i
          have hc1 : p i - center i < cs/2 := by
            rw [hcenter]
            simp only []
            nlinarith
          have hc2 : -(cs/2) ≤ p i - center i := by
            rw [hcenter]
            simp only []
            nlinarith
          nlinarith
      _ = (N:ℚ) * (cs/2)^2 := by
          rw [Finset.sum_const, Finset.card_univ, Fintype.card_fin, nsmul_eq_mul]
  have hlipc := hlip p center
  have hgap : cs / sqrt2C < v.distance p - v.distance center := by
    have hpos : 0 < cs / sqrt2C := div_pos hcs hq
    have hneg : -cs / sqrt2C = -(cs / sqrt2C) := by ring
    rw [hneg] at hdc2
    linarith
  have hsq : (cs / sqrt2C)^2 < (v.distance p - v.distance center)^2 := by
    have h0 : 0 ≤ cs / sqrt2C := le_of_lt (div_pos hcs hq)
    nlinarith
  have hfinal : (N:ℚ) * (cs/2)^2 ≤ (cs / sqrt2C)^2 := by
    have hNle : (N:ℚ) ≤ 2 := by exact_mod_cast hN
    have hN0 : (0:ℚ) ≤ (N:ℚ) := Nat.cast_nonneg N
    have hq2 := sqrt2C_sq_le_two
    have hq2pos : (0:ℚ) < sqrt2C^2 := pow_pos hq 2
    rw [div_pow, div_pow, ← mul_div_assoc]
    rw [div_le_div_iff (by norm_num : (0:ℚ) < 2^2) hq2pos]
    nlinarith [sq_nonneg cs, hNle, hq2, hN0, hq2pos]
  linarith

theorem sample_white_aux_sound {N : ℕ} (v : VolumeQ N) (cs : ℚ) (s : ℕ → ℚ)
    (hN : N ≤ 2) (hcs : 0 < cs) (hs : UnitStream s) (hlip : LipschitzSq v)
    (hcons : SdfConsistent v) :
    ∀ (fuel k : ℕ) (p : VecQ N),
      (sample_white_aux (v.create_grid cs) s fuel k).1 = some p →
      v.contains p = true := by
  intro fuel
  induction fuel with
  | zero =>
    intro k p h
    simp [sample_white_aux] at h
  | succ fuel ih =>
    intro k p h
    by_cases h1 : gen_range_nat s k ((v.create_grid cs).inside_cells.length +
        (v.create_grid cs).border_cells.length) < (v.create_grid cs).inside_cells.length
    · simp only [sample_white_aux, if_pos h1] at h
      have hpe := Option.some_injective _ h
      have hcmem : (v.create_grid cs).inside_cells.getD
          (gen_range_nat s k ((v.create_grid cs).inside_cells.length +
            (v.create_grid cs).border_cells.length)) (fun _ => 0)
          ∈ (v.create_grid cs).inside_cells := by
        rw [List.getD_eq_getElem _ _ h1]
        exact List.getElem_mem _
      refine inside_cell_point_contains v cs _ p hN hcs hlip hcons
        (mem_inside_cells_scaled v cs _ hcmem) ?_
      intro i
      rw [← hpe]
      simp only [sampleOffsets, show (v.create_grid cs).cell_size = cs from rfl]
      have hsk := hs (k + 1 + (i : ℕ))
      constructor
      · nlinarith [hsk.1, hcs]
      · nlinarith [hsk.2, hcs]
    · by_cases h2 : (v.create_grid cs).volume.contains (fun i =>
          sampleOffsets (v.create_grid cs).cell_size s k i +
          (((v.create_grid cs).border_cells.getD
            (gen_range_nat s k ((v.create_grid cs).inside_cells.length +
              (v.create_grid cs).border_cells.length) -
              (v.create_grid cs).inside_cells.length)
            (fun _ => 0)) i : ℚ) * (v.create_grid cs).cell_size) = true
      · simp only [sample_white_aux, if_neg h1, if_pos h2] at h
        have hpe := Option.some_injective _ h
        rw [← hpe]
        exact h2
      · have h2f : (v.create_grid cs).volume.contains (fun i =>
            sampleOffsets (v.create_grid cs).cell_size s k i +
            (((v.create_grid cs).border_cells.getD
              (gen_range_nat s k ((v.create_grid cs).inside_cells.length +
                (v.create_grid cs).border_cells.length) -
                (v.create_grid cs).inside_cells.length)
              (fun _ => 0)) i : ℚ) * (v.create_grid cs).cell_size) = false :=
          Bool.eq_false_iff.mpr h2
        simp only [sample_white_aux, if_neg h1, h2f, Bool.false_eq_true,
          if_false] at h
        exact ih (k + 1 + N) p h

theorem generate_grid_sound {N : ℕ} (v : VolumeQ N) (cs : ℚ)
    (gsize goffset : VecQ N) (p : VecQ N)
    (hN : N ≤ 2) (hcs : 0 < cs) (hlip : LipschitzSq v) (hcons : SdfConsistent v)
    (hgs : ∀ i, 0 < gsize i)
    (hp : p ∈ (v.create_grid cs).generate_grid gsize goffset) :
    v.contains p = true := by
  unfold VolumeGrid.generate_grid at hp
  rcases List.mem_append.mp hp with hin | hbor
  · obtain ⟨c, hcmem, hpc⟩ := List.mem_flatMap.mp hin
    have hb := foreach_grid_in_rect_bounds goffset gsize
      (fun i => (c i : ℚ) * (v.create_grid cs).cell_size)
      (fun _ => (v.create_grid cs).cell_size) p hpc hgs
    refine inside_cell_point_contains v cs c p hN hcs hlip hcons
      (mem_inside_cells_scaled v cs c hcmem) ?_
    intro i
    exact hb i
  · obtain ⟨c, hcmem, hpc⟩ := List.mem_flatMap.mp hbor
    exact (List.mem_filter.mp hpc).2

/-- C5 (amended): for dimension at most 2, every point `sample_white`
returns and every point `generate_grid` passes to its callback satisfies
`contains`, for any domain whose distance field is 1-Lipschitz (squared
form) and consistent with its containment test, any positive cell size,
any unit random stream and any positive lattice spacing.  In dimension 3
the fixed `√2` band constant is too small and the guarantee fails (see
the counterexample). -/
theorem sampler_soundness_low_dim {N : ℕ} (v : VolumeQ N) (cs : ℚ)
    (s : ℕ → ℚ) (fuel k : ℕ) (gsize goffset : VecQ N) (p q : VecQ N)
    (hN : N ≤ 2) (hcs : 0 < cs) (hs : UnitStream s)
    (hlip : LipschitzSq v) (hcons : SdfConsistent v) (hgs : ∀ i, 0 < gsize i) :
    ((v.create_grid cs).sample_white s fuel k = some p → v.contains p = true) ∧
    (q ∈ (v.create_grid cs).generate_grid gsize goffset → v.contains q = true) :=
  ⟨fun h => sample_white_aux_sound v cs s hN hcs hs hlip hcons fuel k p h,
   fun h => generate_grid_sound v cs gsize goffset q hN hcs hlip hcons hgs h⟩

theorem interval1_lipschitz : LipschitzSq interval1 := by
  intro x y
  have habs : |interval1.distance x - interval1.distance y| ≤ |x 0 - y 0| := by
    have h := abs_max_sub_max_le_max (-(1:ℚ)/2 - x 0) (x 0 - 8/5)
      (-(1:ℚ)/2 - y 0) (y 0 - 8/5)
    have he : max |(-(1:ℚ)/2 - x 0) - (-(1:ℚ)/2 - y 0)| |(x 0 - 8/5) - (y 0 - 8/5)|
        = |x 0 - y 0| := by
      rw [show (-(1:ℚ)/2 - x 0) - (-(1:ℚ)/2 - y 0) = -(x 0 - y 0) by ring,
        show (x 0 - 8/5) - (y 0 - 8/5) = x 0 - y 0 by ring, abs_neg, max_self]
    calc |interval1.distance x - interval1.distance y|
        ≤ max |(-(1:ℚ)/2 - x 0) - (-(1:ℚ)/2 - y 0)| |(x 0 - 8/5) - (y 0 - 8/5)| := h
      _ = |x 0 - y 0| := he
  have hsq : (interval1.distance x - interval1.distance y)^2 ≤ (x 0 - y 0)^2 := by
    rw [← sq_abs (interval1.distance x - interval1.distance y), ← sq_abs (x 0 - y 0)]
    exact pow_le_pow_left (abs_nonneg _) habs 2
  have hns : normSq (fun m => x m - y m) = (x 0 - y 0) * (x 0 - y 0) := by
    simp [normSq, Fin.sum_univ_one]
  rw [hns]
  nlinarith [hsq]

theorem interval1_consistent : SdfConsistent interval1 := by
  intro x
  simp [interval1, decide_eq_true_eq, max_le_iff, sub_nonpos]

theorem halfStream_unit : UnitStream halfStream := by
  intro n
  constructor <;> norm_num [halfStream]

/-- C5 witness: the 1D `interval1` at cell size 1 with the constant
stream; the returned sample `-1/2` (an accepted border draw) satisfies
`contains`. -/
theorem sampler_soundness_low_dim_witness :
    interval1.contains (fun _ => -(1:ℚ)/2) = true := by
  have h0 : ((interval1.create_grid 1).sample_white halfStream 3 0).map
      (fun p => p 0) = some (-(1:ℚ)/2) := by decide
  obtain ⟨p, hp, hp0⟩ := Option.map_eq_some'.mp h0
  have hres := (sampler_soundness_low_dim interval1 1 halfStream 3 0
    (fun _ => 1) (fun _ => 0) p vzero (by norm_num) (by norm_num)
    halfStream_unit interval1_lipschitz interval1_consistent
    (fun i => by norm_num)).1 hp
  have hpe : p = fun _ => -(1:ℚ)/2 := by
    funext i
    have hi : i = 0 := Subsingleton.elim i 0
    rw [hi]
    exact hp0
  rwa [hpe] at hres

theorem halfspace3_lipschitz : LipschitzSq halfspace3 := by
  intro x y
  have hns : normSq (fun m => x m - y m) =
      (x 0 - y 0) * (x 0 - y 0) + (x 1 - y 1) * (x 1 - y 1) +
      (x 2 - y 2) * (x 2 - y 2) := by
    simp [normSq, Fin.sum_univ_three]
  rw [hns]
  show (halfspace3.distance x - halfspace3.distance y)^2 ≤ _
  have hd : halfspace3.distance x - halfspace3.distance y =
      (x 0 - y 0) * (1/3) + (x 1 - y 1) * (2/3) + (x 2 - y 2) * (2/3) := by
    show (x 0 * (1/3) + x 1 * (2/3) + x 2 * (2/3) - 463/300) -
      (y 0 * (1/3) + y 1 * (2/3) + y 2 * (2/3) - 463/300) = _
    ring
  rw [hd]
  nlinarith [sq_nonneg ((x 1 - y 1) - 2*(x 0 - y 0)),
    sq_nonneg ((x 2 - y 2) - 2*(x 0 - y 0)),
    sq_nonneg (2*(x 2 - y 2) - 2*(x 1 - y 1))]

theorem halfspace3_consistent : SdfConsistent halfspace3 := by
  intro x
  simp [halfspace3, decide_eq_true_eq]

theorem c5stream_unit : UnitStream c5stream := by
  intro n
  rcases n with _ | _ | _ | _ | n <;> norm_num [c5stream]

/-- C5 counterexample: `halfspace3` is an exactly 1-Lipschitz signed
distance field consistent with its containment test (the half-space with
rational unit normal `(1/3, 2/3, 2/3)`), yet with cell size 1 its single
grid cell is classified Inside (scaled center distance
`-71/100 · SQRT_2 < -1`), and `sample_white` — drawing that inside cell
and offsets `99/100` per axis from a valid unit stream — returns the point
`(99/100, 99/100, 99/100)` for which `contains` is false. -/
theorem sampler_soundness_dim3_cex :
    LipschitzSq halfspace3 ∧ SdfConsistent halfspace3 ∧
    UnitStream c5stream ∧
    ((halfspace3.create_grid 1).sample_white c5stream 1 0).map
      (fun p => (p 0, p 1, p 2)) = some (99/100, 99/100, 99/100) ∧
    ((halfspace3.create_grid 1).sample_white c5stream 1 0).map
      halfspace3.contains = some false :=
  ⟨halfspace3_lipschitz, halfspace3_consistent, c5stream_unit,
   by decide, by decide⟩

end Prism
